import Mathlib

/-!
# Verification of pyphi `utils.py` and `jsonify.py`

A shallow embedding of the pure computational content of the pyphi utility
module (state/index conventions, bipartition enumeration, Hamming cost
matrix, connectivity-matrix cuts, TPM validation, EMD wrapper, array
hashing) and of the JSON serialization layer, together with theorems
settling the specified properties.

Python integers are modelled by `Nat`, floating-point values by `ℚ` (the
inputs relevant to the claims are exact decimal literals; the comparisons
performed by the code are order comparisons that rationals model exactly),
NumPy arrays by lists (row-major) together with explicit shape data where
needed, and exceptions by `Except String`.
-/

namespace PyPhi

/-! ## Bit-level helpers -/

/-- Number of set bits of a natural number (the number of ones in its binary
expansion). Used to state the Hamming-distance property. -/
def popcount (n : Nat) : Nat :=
  if n = 0 then 0 else n % 2 + popcount (n / 2)
decreasing_by exact Nat.div_lt_self (Nat.pos_of_ne_zero (by assumption)) (by omega)

theorem popcount_zero : popcount 0 = 0 := by
  unfold popcount; rfl

theorem popcount_eq (n : Nat) : popcount n = n % 2 + popcount (n / 2) := by
  by_cases h : n = 0
  · subst h; simp [popcount_zero]
  · rw [popcount, if_neg h]

/-- A low-order-first bit extracted by shifting and masking, as the Python
code writes `(i >> k) & 1`, equals the `k`-th binary digit. -/
theorem shift_and_one (i k : Nat) : (i >>> k) &&& 1 = i / 2 ^ k % 2 := by
  rw [Nat.and_one_is_mod, Nat.shiftRight_eq_div_pow]

theorem testBit_eq_one_iff (i k : Nat) :
    i.testBit k = true ↔ (i >>> k) &&& 1 = 1 := by
  rw [Nat.testBit_to_div_mod, shift_and_one]
  simp

/-- Counting the set bits among the first `n` positions of `i < 2 ^ n`
gives the popcount. -/
theorem countP_testBit (n : Nat) : ∀ i : Nat, i < 2 ^ n →
    (List.range n).countP (fun k => i.testBit k) = popcount i := by
  induction n with
  | zero =>
    intro i hi
    interval_cases i
    simp [popcount_zero]
  | succ n ih =>
    intro i hi
    rw [List.range_succ_eq_map, List.countP_cons, List.countP_map]
    have htail : ((List.range n).countP ((fun k => i.testBit k) ∘ Nat.succ))
        = (List.range n).countP (fun k => (i / 2).testBit k) := by
      apply List.countP_congr
      intro k _
      simp only [Function.comp_apply]
      rw [Nat.testBit_succ]
    have hdiv : i / 2 < 2 ^ n := by
      have := Nat.pow_succ 2 n
      omega
    rw [htail, ih (i / 2) hdiv, popcount_eq i]
    rw [Nat.testBit_zero]
    rcases Nat.mod_two_eq_zero_or_one i with h | h <;> simp [h] <;> omega

/-! ## State/index conventions (`utils.py`, `pyphi_index2state`,
`natural_index2state`)

`pyphi_index2state(i, n)` is `tuple((i >> k) & 1 for k in range(n))`;
`natural_index2state(i, n)` is its reverse. -/

def pyphi_index2state (i number_of_nodes : Nat) : List Nat :=
  (List.range number_of_nodes).map (fun k => (i >>> k) &&& 1)

def natural_index2state (i number_of_nodes : Nat) : List Nat :=
  (pyphi_index2state i number_of_nodes).reverse

/-- Modelled from the spec: the LOLI encoding (`encode`) that is inverse to
`pyphi_index2state` is not part of `src/`; the spec fixes it as the integer
whose bit `k` is the state of node `k` (low-order bits ↔ low-index nodes). -/
def loli_state2index (s : List Nat) : Nat :=
  s.foldr (fun b acc => b + 2 * acc) 0

/-- Modelled from the spec: the HOLI encoding, the bit-reversal of the LOLI
encoding (high-order bits ↔ low-index nodes). -/
def holi_state2index (s : List Nat) : Nat :=
  loli_state2index s.reverse

theorem pyphi_index2state_succ (i n : Nat) :
    pyphi_index2state i (n + 1) = i % 2 :: pyphi_index2state (i / 2) n := by
  unfold pyphi_index2state
  rw [List.range_succ_eq_map, List.map_cons, List.map_map]
  refine List.cons_eq_cons.mpr ⟨?_, ?_⟩
  · rw [Nat.shiftRight_zero, Nat.and_one_is_mod]
  · apply List.map_congr_left
    intro k _
    simp only [Function.comp_apply]
    have : i >>> (k + 1) = (i >>> 1) >>> k := by
      rw [← Nat.shiftRight_add, Nat.add_comm]
    rw [this, Nat.shiftRight_one]

theorem pyphi_index2state_length (i n : Nat) :
    (pyphi_index2state i n).length = n := by
  simp [pyphi_index2state]

theorem pyphi_index2state_binary (i n : Nat) :
    ∀ b ∈ pyphi_index2state i n, b ≤ 1 := by
  intro b hb
  simp only [pyphi_index2state, List.mem_map] at hb
  obtain ⟨k, _, hk⟩ := hb
  rw [shift_and_one] at hk
  omega

/-- Decoding then (spec-modelled) encoding is the identity on `[0, 2^n)`. -/
theorem loli_encode_decode (n : Nat) : ∀ i : Nat, i < 2 ^ n →
    loli_state2index (pyphi_index2state i n) = i := by
  induction n with
  | zero =>
    intro i hi
    interval_cases i
    rfl
  | succ n ih =>
    intro i hi
    rw [pyphi_index2state_succ]
    have hdiv : i / 2 < 2 ^ n := by
      have := Nat.pow_succ 2 n
      omega
    show i % 2 + 2 * loli_state2index (pyphi_index2state (i / 2) n) = i
    rw [ih (i / 2) hdiv]
    omega

theorem loli_state2index_lt (s : List Nat) (hs : ∀ b ∈ s, b ≤ 1) :
    loli_state2index s < 2 ^ s.length := by
  induction s with
  | nil => simp [loli_state2index]
  | cons b t ih =>
    have hb : b ≤ 1 := hs b (by simp)
    have ht : loli_state2index t < 2 ^ t.length :=
      ih (fun x hx => hs x (by simp [hx]))
    show b + 2 * loli_state2index t < 2 ^ (t.length + 1)
    have := Nat.pow_succ 2 t.length
    omega

/-- (Spec-modelled) encoding then decoding is the identity on binary
state-tuples. -/
theorem loli_decode_encode : ∀ s : List Nat, (∀ b ∈ s, b ≤ 1) →
    pyphi_index2state (loli_state2index s) s.length = s := by
  intro s
  induction s with
  | nil => intro _; rfl
  | cons b t ih =>
    intro hs
    have hb : b ≤ 1 := hs b (by simp)
    show pyphi_index2state (b + 2 * loli_state2index t) (t.length + 1) = b :: t
    rw [pyphi_index2state_succ]
    have h1 : (b + 2 * loli_state2index t) % 2 = b := by omega
    have h2 : (b + 2 * loli_state2index t) / 2 = loli_state2index t := by omega
    rw [h1, h2, ih (fun x hx => hs x (by simp [hx]))]

/-! ## Bipartition enumeration (`utils.py`, `bipartition_indices`) -/

/-- `bipartition_indices(N)`: iterate `i` over `range(2**(N-1))`; for each
position `n` append `n` to `part[bit]` where `bit = (i >> n) & 1`; emit
`(part[1], part[0])`. -/
def bipartition_indices (N : Nat) : List (List Nat × List Nat) :=
  if N ≤ 0 then []
  else
    (List.range (2 ^ (N - 1))).map (fun i =>
      let part := (List.range N).foldl
        (fun p n =>
          if (i >>> n) &&& 1 = 1 then (p.1, p.2 ++ [n]) else (p.1 ++ [n], p.2))
        ([], [])
      (part.2, part.1))

theorem bipartition_foldl (i : Nat) : ∀ (l : List Nat) (a b : List Nat),
    (l.foldl
      (fun p n =>
        if (i >>> n) &&& 1 = 1 then (p.1, p.2 ++ [n]) else (p.1 ++ [n], p.2))
      (a, b))
    = (a ++ l.filter (fun n => !(i.testBit n)),
       b ++ l.filter (fun n => i.testBit n)) := by
  intro l
  induction l with
  | nil => intro a b; simp
  | cons n t ih =>
    intro a b
    rw [List.foldl_cons]
    by_cases h : i.testBit n = true
    · have hbit : (i >>> n) &&& 1 = 1 := (testBit_eq_one_iff i n).mp h
      rw [if_pos hbit, ih]
      simp [List.filter_cons, h]
    · have hbit : ¬((i >>> n) &&& 1 = 1) :=
        fun hc => h ((testBit_eq_one_iff i n).mpr hc)
      rw [if_neg hbit, ih]
      simp only [Bool.not_eq_true] at h
      simp [List.filter_cons, h]

/-- Claim C1: for every `n ≥ 1`, `bipartition_indices n` returns exactly
`2^(n-1)` bipartitions in the canonical order obtained by iterating a bitmask
`i` from `0` to `2^(n-1) - 1`, where bit `k` of the mask assigns position `k`
to group 1 and otherwise to group 0, emitting the pair `(group1, group0)` with
indices in ascending order within each group (ascending because they are
filters of `range n`); in particular for `n = 3` it returns exactly the four
pairs `((), (0,1,2))`, `((0,), (1,2))`, `((1,), (0,2))`, `((0,1), (2,))` in
that order. -/
theorem bipartition_indices_spec (n : Nat) (h : 1 ≤ n) :
    bipartition_indices n
      = (List.range (2 ^ (n - 1))).map (fun i =>
          ((List.range n).filter (fun k => i.testBit k),
           (List.range n).filter (fun k => !(i.testBit k))))
    ∧ (bipartition_indices n).length = 2 ^ (n - 1)
    ∧ bipartition_indices 3
        = [([], [0, 1, 2]), ([0], [1, 2]), ([1], [0, 2]), ([0, 1], [2])] := by
  have hmain : bipartition_indices n
      = (List.range (2 ^ (n - 1))).map (fun i =>
          ((List.range n).filter (fun k => i.testBit k),
           (List.range n).filter (fun k => !(i.testBit k)))) := by
    unfold bipartition_indices
    rw [if_neg (by omega)]
    apply List.map_congr_left
    intro i _
    rw [bipartition_foldl]
    simp
  refine ⟨hmain, ?_, by decide⟩
  rw [hmain]
  simp

theorem bipartition_indices_spec_witness :
    bipartition_indices 3
      = (List.range (2 ^ (3 - 1))).map (fun i =>
          ((List.range 3).filter (fun k => i.testBit k),
           (List.range 3).filter (fun k => !(i.testBit k))))
    ∧ (bipartition_indices 3).length = 2 ^ (3 - 1)
    ∧ bipartition_indices 3
        = [([], [0, 1, 2]), ([0], [1, 2]), ([1], [0, 2]), ([0, 1], [2])] :=
  bipartition_indices_spec 3 (by decide)

/-- Claim C2: for every `n ≥ 0` and every `0 ≤ i < 2^n`, the HOLI state tuple
`natural_index2state i n` is the exact reverse of the LOLI state tuple
`pyphi_index2state i n`; both maps are total bijections from `[0, 2^n)` onto
`{0,1}^n` (stated as the two-sided inverse identities with the spec-modelled
encodings together with range/binarity of the outputs), so decoding is
left-inverse to encoding under both conventions. -/
theorem index2state_bijection_spec (n i : Nat) (hi : i < 2 ^ n)
    (s : List Nat) (hlen : s.length = n) (hbin : ∀ b ∈ s, b ≤ 1) :
    natural_index2state i n = (pyphi_index2state i n).reverse
    ∧ (pyphi_index2state i n).length = n
    ∧ (∀ b ∈ pyphi_index2state i n, b ≤ 1)
    ∧ loli_state2index (pyphi_index2state i n) = i
    ∧ pyphi_index2state (loli_state2index s) n = s
    ∧ loli_state2index s < 2 ^ n
    ∧ holi_state2index (natural_index2state i n) = i
    ∧ natural_index2state (holi_state2index s) n = s := by
  have hrevlen : s.reverse.length = n := by simp [hlen]
  have hrevbin : ∀ b ∈ s.reverse, b ≤ 1 := fun b hb => hbin b (List.mem_reverse.mp hb)
  refine ⟨rfl, pyphi_index2state_length i n, pyphi_index2state_binary i n,
    loli_encode_decode n i hi, ?_, ?_, ?_, ?_⟩
  · have := loli_decode_encode s hbin
    rwa [hlen] at this
  · have := loli_state2index_lt s hbin
    rwa [hlen] at this
  · unfold holi_state2index natural_index2state
    rw [List.reverse_reverse]
    exact loli_encode_decode n i hi
  · unfold holi_state2index natural_index2state
    have := loli_decode_encode s.reverse hrevbin
    rw [hrevlen] at this
    rw [this, List.reverse_reverse]

theorem index2state_bijection_spec_witness :
    natural_index2state 5 3 = (pyphi_index2state 5 3).reverse
    ∧ (pyphi_index2state 5 3).length = 3
    ∧ (∀ b ∈ pyphi_index2state 5 3, b ≤ 1)
    ∧ loli_state2index (pyphi_index2state 5 3) = 5
    ∧ pyphi_index2state (loli_state2index [1, 1, 0]) 3 = [1, 1, 0]
    ∧ loli_state2index [1, 1, 0] < 2 ^ 3
    ∧ holi_state2index (natural_index2state 5 3) = 5
    ∧ natural_index2state (holi_state2index [1, 1, 0]) 3 = [1, 1, 0] :=
  index2state_bijection_spec 3 5 (by decide) [1, 1, 0] (by decide) (by decide)

/-! ## Hamming cost matrix (`utils.py`, `_hamming_matrix`)

The code builds `possible_states = [list(bin(state)[2:].zfill(N)) for state
in range(2**N)]` and returns `cdist(possible_states, possible_states,
'hamming') * N`.  We model the binary string of `bin(state)[2:]` as the
most-significant-bit-first digit list (with `[0]` for zero, as in Python),
`zfill` as left padding with zeros, and the `cdist` `'hamming'` metric as the
fraction of positions at which the two equal-length vectors disagree. -/

/-- Least-significant-first binary digits, empty for zero (the digits Python
produces before reversal and the special case for `0`). -/
def lsbBits (n : Nat) : List Nat :=
  if n = 0 then [] else n % 2 :: lsbBits (n / 2)
decreasing_by exact Nat.div_lt_self (Nat.pos_of_ne_zero (by assumption)) (by omega)

/-- `bin(n)[2:]` as a digit list: most-significant first, `[0]` for `0`. -/
def binStr (n : Nat) : List Nat :=
  if n = 0 then [0] else (lsbBits n).reverse

/-- `str.zfill(N)`: left-pad with zeros to length `N` (never truncates). -/
def zfill (N : Nat) (l : List Nat) : List Nat :=
  List.replicate (N - l.length) 0 ++ l

/-- Number of positions at which two vectors disagree (the numerator of the
`cdist` `'hamming'` metric). -/
def countMismatch (l₁ l₂ : List Nat) : Nat :=
  (l₁.zip l₂).countP (fun p => p.1 != p.2)

/-- One entry of `cdist(..., 'hamming') * N`: fraction of disagreeing
positions, times the node count. -/
def hammingEntry (N i j : Nat) : ℚ :=
  (countMismatch (zfill N (binStr i)) (zfill N (binStr j)) : ℚ)
    / ((zfill N (binStr i)).length : ℚ) * (N : ℚ)

/-- `_hamming_matrix(N)` as a `2^N × 2^N` matrix of rationals. -/
def hamming_matrix (N : Nat) : List (List ℚ) :=
  (List.range (2 ^ N)).map (fun i =>
    (List.range (2 ^ N)).map (fun j => hammingEntry N i j))

/-- Entry access with NumPy-style two-dimensional indexing (default `0`
outside the matrix). -/
def entryD (m : List (List ℚ)) (i j : Nat) : ℚ :=
  (m.getD i []).getD j 0

/-- Low-order-first padded digit vector of length `n`. -/
def bitsLE (n i : Nat) : List Nat :=
  (List.range n).map (fun k => i / 2 ^ k % 2)

theorem lsbBits_zero : lsbBits 0 = [] := by
  unfold lsbBits; rfl

theorem lsbBits_eq (n : Nat) (h : n ≠ 0) :
    lsbBits n = n % 2 :: lsbBits (n / 2) := by
  rw [lsbBits, if_neg h]

theorem bitsLE_zero_eq_replicate (n : Nat) : bitsLE n 0 = List.replicate n 0 := by
  unfold bitsLE
  have hf : (fun k : Nat => 0 / 2 ^ k % 2) = (fun _ : Nat => 0) := by
    funext k
    simp
  rw [hf]
  simp [List.map_const']

theorem bitsLE_succ (n i : Nat) :
    bitsLE (n + 1) i = i % 2 :: bitsLE n (i / 2) := by
  unfold bitsLE
  rw [List.range_succ_eq_map, List.map_cons, List.map_map]
  refine List.cons_eq_cons.mpr ⟨by simp, ?_⟩
  apply List.map_congr_left
  intro k _
  simp only [Function.comp_apply]
  rw [Nat.div_div_eq_div_mul, ← Nat.pow_succ']

/-- For `i < 2^N`, the length-`N` low-order-first padded vector is the digit
list followed by zero padding. -/
theorem bitsLE_eq_lsbBits_pad (N : Nat) : ∀ i : Nat, i < 2 ^ N →
    bitsLE N i = lsbBits i ++ List.replicate (N - (lsbBits i).length) 0 := by
  induction N with
  | zero =>
    intro i hi
    interval_cases i
    simp [bitsLE, lsbBits_zero]
  | succ N ih =>
    intro i hi
    by_cases h0 : i = 0
    · subst h0
      rw [bitsLE_zero_eq_replicate, lsbBits_zero]
      simp
    · rw [bitsLE_succ, lsbBits_eq i h0]
      have hdiv : i / 2 < 2 ^ N := by
        have := Nat.pow_succ 2 N
        omega
      rw [ih (i / 2) hdiv]
      simp only [List.length_cons, List.cons_append]
      have harith : N + 1 - ((lsbBits (i / 2)).length + 1)
          = N - (lsbBits (i / 2)).length := by omega
      rw [harith]

/-- For `i < 2^N` with `N ≥ 1`, the padded Python binary string is the
reverse of the length-`N` low-order-first digit vector. -/
theorem zfill_binStr_eq (N i : Nat) (hN : 1 ≤ N) (hi : i < 2 ^ N) :
    zfill N (binStr i) = (bitsLE N i).reverse := by
  by_cases h0 : i = 0
  · subst h0
    rw [bitsLE_zero_eq_replicate]
    unfold zfill binStr
    rw [if_pos rfl]
    simp only [List.length_singleton, List.reverse_replicate]
    obtain ⟨M, rfl⟩ : ∃ M, N = M + 1 := ⟨N - 1, by omega⟩
    rw [List.replicate_succ' M 0]
    simp
  · unfold zfill binStr
    rw [if_neg h0, bitsLE_eq_lsbBits_pad N i hi, List.reverse_append,
      List.reverse_replicate]
    simp

theorem zfill_binStr_length (N i : Nat) (hN : 1 ≤ N) (hi : i < 2 ^ N) :
    (zfill N (binStr i)).length = N := by
  rw [zfill_binStr_eq N i hN hi]
  simp [bitsLE]

theorem zip_reverse : ∀ (l₁ l₂ : List Nat), l₁.length = l₂.length →
    l₁.reverse.zip l₂.reverse = (l₁.zip l₂).reverse := by
  intro l₁
  induction l₁ with
  | nil =>
    intro l₂ h
    have : l₂ = [] := List.eq_nil_of_length_eq_zero h.symm
    subst this
    rfl
  | cons a t₁ ih =>
    intro l₂ h
    match l₂ with
    | [] => simp at h
    | b :: t₂ =>
      simp only [List.length_cons, Nat.add_right_cancel_iff] at h
      simp only [List.reverse_cons, List.zip_cons_cons]
      rw [List.zip_append (by simp [h]), ih t₂ h]
      simp

/-- Reversing both vectors preserves the mismatch count (for equal
lengths). -/
theorem countMismatch_reverse (l₁ l₂ : List Nat) (h : l₁.length = l₂.length) :
    countMismatch l₁.reverse l₂.reverse = countMismatch l₁ l₂ := by
  unfold countMismatch
  rw [zip_reverse _ _ h, List.countP_reverse]

theorem countMismatch_bitsLE (N i j : Nat) (hi : i < 2 ^ N) (hj : j < 2 ^ N) :
    countMismatch (bitsLE N i) (bitsLE N j) = popcount (i ^^^ j) := by
  unfold countMismatch bitsLE
  rw [List.zip_map', List.countP_map]
  have hxor : i ^^^ j < 2 ^ N := Nat.xor_lt_two_pow hi hj
  rw [← countP_testBit N (i ^^^ j) hxor]
  apply List.countP_congr
  intro k _
  simp only [Function.comp_apply]
  rw [Nat.testBit_xor, Nat.testBit_to_div_mod, Nat.testBit_to_div_mod]
  rcases Nat.mod_two_eq_zero_or_one (i / 2 ^ k) with h1 | h1 <;>
    rcases Nat.mod_two_eq_zero_or_one (j / 2 ^ k) with h2 | h2 <;>
    simp [h1, h2]

/-- The Hamming-matrix entry for in-range indices is the popcount of the
XOR. -/
theorem hammingEntry_eq_popcount (N i j : Nat) (hi : i < 2 ^ N)
    (hj : j < 2 ^ N) : hammingEntry N i j = (popcount (i ^^^ j) : ℚ) := by
  by_cases h0 : N = 0
  · subst h0
    interval_cases i
    interval_cases j
    simp [hammingEntry, countMismatch, zfill, binStr, lsbBits_zero, popcount_zero]
  · have hN : 1 ≤ N := by omega
    unfold hammingEntry
    rw [zfill_binStr_eq N i hN hi, zfill_binStr_eq N j hN hj]
    rw [countMismatch_reverse _ _ (by simp [bitsLE])]
    rw [countMismatch_bitsLE N i j hi hj]
    have hlen : ((bitsLE N i).reverse.length : ℚ) = (N : ℚ) := by
      simp [bitsLE]
    rw [hlen]
    have hNQ : (N : ℚ) ≠ 0 := by
      simp [h0]
    field_simp

theorem hamming_matrix_entry (N i j : Nat) (hi : i < 2 ^ N) (hj : j < 2 ^ N) :
    entryD (hamming_matrix N) i j = hammingEntry N i j := by
  unfold hamming_matrix entryD
  simp [List.getD_eq_getElem?_getD, List.getElem?_map, List.getElem?_range, hi, hj]

/-- Claim C4: for every `N ≥ 0`, `_hamming_matrix N` is a `2^N × 2^N` matrix
whose entry at `(i, j)` equals the Hamming distance between the `N`-bit binary
state decompositions of `i` and `j` — the number of bit positions where they
differ, i.e. `popcount (i ^^^ j)` (the `cdist` fraction of disagreeing
positions scaled back by the node count) — so the matrix is symmetric with an
all-zero diagonal. -/
theorem hamming_matrix_spec (N i j : Nat) (hi : i < 2 ^ N) (hj : j < 2 ^ N) :
    (hamming_matrix N).length = 2 ^ N
    ∧ (∀ row ∈ hamming_matrix N, row.length = 2 ^ N)
    ∧ entryD (hamming_matrix N) i j = (popcount (i ^^^ j) : ℚ)
    ∧ entryD (hamming_matrix N) i j = entryD (hamming_matrix N) j i
    ∧ entryD (hamming_matrix N) i i = 0 := by
  refine ⟨by simp [hamming_matrix], ?_, ?_, ?_, ?_⟩
  · intro row hrow
    simp only [hamming_matrix, List.mem_map] at hrow
    obtain ⟨a, _, ha⟩ := hrow
    rw [← ha]
    simp
  · rw [hamming_matrix_entry N i j hi hj, hammingEntry_eq_popcount N i j hi hj]
  · rw [hamming_matrix_entry N i j hi hj, hammingEntry_eq_popcount N i j hi hj,
      hamming_matrix_entry N j i hj hi, hammingEntry_eq_popcount N j i hj hi,
      Nat.xor_comm]
  · rw [hamming_matrix_entry N i i hi hi, hammingEntry_eq_popcount N i i hi hi]
    simp [popcount_zero]

theorem hamming_matrix_spec_witness :
    (hamming_matrix 2).length = 2 ^ 2
    ∧ (∀ row ∈ hamming_matrix 2, row.length = 2 ^ 2)
    ∧ entryD (hamming_matrix 2) 1 2 = (popcount (1 ^^^ 2) : ℚ)
    ∧ entryD (hamming_matrix 2) 1 2 = entryD (hamming_matrix 2) 2 1
    ∧ entryD (hamming_matrix 2) 1 1 = 0 :=
  hamming_matrix_spec 2 1 2 (by decide) (by decide)

/-! ## Connectivity-matrix cuts (`utils.py`, `apply_cut`)

`apply_cut(cut, connectivity_matrix)` copies the matrix and sets
`cm[i][j] = 0` for every `i` in `cut.severed` and `j` in `cut.intact`; a
`None` cut returns the matrix unchanged.  The in-place assignments on the
copy are modelled by folds over the two index lists; because the embedding
is functional, the argument matrix itself is untouched by construction
(mirroring the `copy()` in the code). -/

/-- A cut, as the pair of its `severed` and `intact` index lists. -/
structure Cut where
  severed : List Nat
  intact : List Nat

/-- `cm[i][j] = 0` on a list-of-rows matrix (out-of-range indices leave the
matrix unchanged, as NumPy assignment would fail rather than write). -/
def zeroEntry (m : List (List ℚ)) (i j : Nat) : List (List ℚ) :=
  m.set i ((m.getD i []).set j 0)

def apply_cut (cut : Option Cut) (connectivity_matrix : List (List ℚ)) :
    List (List ℚ) :=
  match cut with
  | none => connectivity_matrix
  | some c =>
    c.severed.foldl
      (fun cm i => c.intact.foldl (fun cm' j => zeroEntry cm' i j) cm)
      connectivity_matrix

theorem getD_set_self (l : List (List ℚ)) (n : Nat) (a : List ℚ)
    (h : n < l.length) : (l.set n a).getD n [] = a := by
  simp [List.getD_eq_getElem?_getD, List.getElem?_set_self, h]

theorem getD_set_ne (l : List (List ℚ)) (n m : Nat) (a : List ℚ)
    (h : n ≠ m) : (l.set n a).getD m [] = l.getD m [] := by
  simp [List.getD_eq_getElem?_getD, List.getElem?_set_ne h]

theorem getD_row_set_self (r : List ℚ) (j : Nat) :
    (r.set j 0).getD j 0 = 0 := by
  by_cases h : j < r.length
  · simp [List.getD_eq_getElem?_getD, List.getElem?_set_self, h]
  · rw [List.set_eq_of_length_le (by omega)]
    have hnone : r[j]? = none := List.getElem?_eq_none (by omega)
    simp [List.getD_eq_getElem?_getD, hnone]

theorem getD_row_set_ne (r : List ℚ) (j j' : Nat) (h : j ≠ j') :
    (r.set j 0).getD j' 0 = r.getD j' 0 := by
  simp [List.getD_eq_getElem?_getD, List.getElem?_set_ne h]

theorem entryD_zeroEntry (m : List (List ℚ)) (i₀ j₀ i j : Nat) :
    entryD (zeroEntry m i₀ j₀) i j
      = if i = i₀ ∧ j = j₀ then 0 else entryD m i j := by
  unfold entryD zeroEntry
  by_cases hi : i = i₀
  · subst hi
    by_cases hrange : i < m.length
    · rw [getD_set_self m i _ hrange]
      by_cases hj : j = j₀
      · subst hj
        rw [if_pos ⟨rfl, rfl⟩, getD_row_set_self]
      · rw [if_neg (by tauto), getD_row_set_ne _ _ _ (fun hc => hj hc.symm)]
    · rw [List.set_eq_of_length_le (by omega)]
      have hnone : m.getD i [] = [] := by
        have hn : m[i]? = none := List.getElem?_eq_none (by omega)
        simp [List.getD_eq_getElem?_getD, hn]
      rw [hnone]
      simp
  · rw [getD_set_ne m i₀ i _ (fun hc => hi hc.symm), if_neg (by tauto)]

theorem zeroEntry_length (m : List (List ℚ)) (i j : Nat) :
    (zeroEntry m i j).length = m.length := by
  simp [zeroEntry]

theorem zeroEntry_row_length (m : List (List ℚ)) (i j k : Nat) :
    ((zeroEntry m i j).getD k []).length = (m.getD k []).length := by
  unfold zeroEntry
  by_cases hk : i = k
  · subst hk
    by_cases hrange : i < m.length
    · rw [getD_set_self m i _ hrange]
      simp
    · rw [List.set_eq_of_length_le (by omega)]
  · rw [getD_set_ne m i k _ hk]

theorem entryD_inner_fold (i₀ : Nat) : ∀ (js : List Nat) (m : List (List ℚ))
    (i j : Nat),
    entryD (js.foldl (fun cm' j' => zeroEntry cm' i₀ j') m) i j
      = if i = i₀ ∧ j ∈ js then 0 else entryD m i j := by
  intro js
  induction js with
  | nil => intro m i j; simp
  | cons j₁ t ih =>
    intro m i j
    rw [List.foldl_cons, ih]
    rw [entryD_zeroEntry]
    by_cases hi : i = i₀
    · subst hi
      by_cases hj : j ∈ t
      · simp [hj]
      · by_cases hj1 : j = j₁ <;> simp [hj, hj1]
    · simp [hi]

theorem inner_fold_length (i₀ : Nat) : ∀ (js : List Nat) (m : List (List ℚ)),
    (js.foldl (fun cm' j' => zeroEntry cm' i₀ j') m).length = m.length := by
  intro js
  induction js with
  | nil => intro m; rfl
  | cons j₁ t ih =>
    intro m
    rw [List.foldl_cons, ih, zeroEntry_length]

theorem inner_fold_row_length (i₀ : Nat) : ∀ (js : List Nat)
    (m : List (List ℚ)) (k : Nat),
    ((js.foldl (fun cm' j' => zeroEntry cm' i₀ j') m).getD k []).length
      = ((m.getD k []).length) := by
  intro js
  induction js with
  | nil => intro m k; rfl
  | cons j₁ t ih =>
    intro m k
    rw [List.foldl_cons, ih, zeroEntry_row_length]

theorem entryD_outer_fold (intact : List Nat) : ∀ (sev : List Nat)
    (m : List (List ℚ)) (i j : Nat),
    entryD (sev.foldl
        (fun cm i' => intact.foldl (fun cm' j' => zeroEntry cm' i' j') cm) m)
        i j
      = if i ∈ sev ∧ j ∈ intact then 0 else entryD m i j := by
  intro sev
  induction sev with
  | nil => intro m i j; simp
  | cons i₁ t ih =>
    intro m i j
    rw [List.foldl_cons, ih, entryD_inner_fold]
    by_cases hj : j ∈ intact
    · by_cases hi : i ∈ t
      · simp [hi, hj]
      · by_cases hi1 : i = i₁ <;> simp [hi, hi1, hj]
    · simp [hj]

/-- Claim C6: for every cut with severed and intact index sets and every
connectivity matrix, `apply_cut` returns a matrix whose entries at `(i, j)`
with `i` severed and `j` intact are all `0`, while every other entry
(including all intact→severed and intact→intact entries) equals the
corresponding entry of the original matrix; the shape is unchanged, and the
original matrix is never mutated (the embedding is functional: the result is
built from a copy, exactly as `connectivity_matrix.copy()` in the code, and
the argument value is untouched). -/
theorem apply_cut_spec (c : Cut) (cm : List (List ℚ)) (i j : Nat) :
    entryD (apply_cut (some c) cm) i j
      = (if i ∈ c.severed ∧ j ∈ c.intact then 0 else entryD cm i j)
    ∧ (apply_cut (some c) cm).length = cm.length
    ∧ ((apply_cut (some c) cm).getD i []).length = (cm.getD i []).length := by
  refine ⟨entryD_outer_fold c.intact c.severed cm i j, ?_, ?_⟩
  · show (c.severed.foldl _ cm).length = cm.length
    generalize cm = m
    induction c.severed generalizing m with
    | nil => rfl
    | cons i₁ t ih => rw [List.foldl_cons, ih, inner_fold_length]
  · show ((c.severed.foldl _ cm).getD i []).length = (cm.getD i []).length
    generalize cm = m
    induction c.severed generalizing m with
    | nil => rfl
    | cons i₁ t ih => rw [List.foldl_cons, ih, inner_fold_row_length]

/-! ## State-by-state TPM validation
(`utils.py`, `state_by_state2state_by_node`)

The function validates, in order: `tpm.ndim != 2`, `tpm.shape[0] !=
tpm.shape[1]`, and then `not np.allclose(tpm.sum(1) == 1,
np.ones(tpm.shape[1]), atol=constants.PRECISION)`.  Note that the third
check compares the *boolean* array `tpm.sum(1) == 1` (cast to `0.0`/`1.0`)
against ones: `np.allclose(x, y, rtol, atol)` holds elementwise iff
`|x - y| ≤ atol + rtol * |y|` with default `rtol = 1e-5`, so for a row whose
sum is not exactly `1` the compared element is `0.0` against `1.0` and the
check fails no matter how small the row-sum error is.  Only the validation
prologue is modelled (`Except.ok ()` standing for reaching the conversion),
since the claim concerns which inputs raise a validation error. -/

/-- Modelled from the spec: `constants.PRECISION` is not under `src/`; the
spec gives the configured tolerance as `1e-10`. -/
def PRECISION : ℚ := 1 / 10 ^ 10

/-- Executable absolute value on `ℚ` (the lattice-theoretic `|·|` does not
reduce by kernel evaluation). -/
def absQ (q : ℚ) : ℚ := if q < 0 then -q else q

theorem absQ_eq_abs (q : ℚ) : absQ q = |q| := by
  by_cases h : q < 0
  · rw [absQ, if_pos h, abs_of_neg h]
  · rw [absQ, if_neg h, abs_of_nonneg (by linarith)]

/-- `np.allclose(a, b, atol=atol)` with the default `rtol = 1e-5`, for
equal-length one-dimensional arrays. -/
def np_allclose (a b : List ℚ) (atol : ℚ) : Bool :=
  (a.zip b).all (fun p => absQ (p.1 - p.2) ≤ atol + (1 / 100000) * absQ p.2)

/-- `np.array(rows).ndim` for a list of numeric rows: `2` when the rows are
rectangular and there is at least one row, else `1` (a ragged input becomes a
one-dimensional object array, and `np.array([])` is one-dimensional). -/
def tpm_ndim (tpm : List (List ℚ)) : Nat :=
  match tpm with
  | [] => 1
  | r :: rest => if rest.all (fun row => row.length == r.length) then 2 else 1

/-- The validation prologue of `state_by_state2state_by_node`, with
`Except.ok ()` standing for proceeding to the conversion. -/
def state_by_state2state_by_node (tpm : List (List ℚ)) : Except String Unit :=
  if tpm_ndim tpm ≠ 2 then
    Except.error "State-by-state TPM must be 2-dimensional."
  else if tpm.length ≠ (tpm.headD []).length then
    Except.error "State-by-state TPM must be square."
  else if np_allclose (tpm.map (fun r => if r.sum = 1 then (1 : ℚ) else 0))
      (List.replicate ((tpm.headD []).length) 1) PRECISION = false then
    Except.error "Rows of the TPM must sum to 1."
  else Except.ok ()

/-- Claim C3 (refuting evaluation): a square two-dimensional TPM whose rows
each sum to `1` within the configured tolerance — but, in the first row, not
exactly — is rejected by the code with the row-sum validation error, although
the claim (and the spec's tolerance-based contract, which the `atol` argument
in the code was evidently meant to implement) says it must be accepted. -/
theorem sbs2sbn_tolerance_bug :
    state_by_state2state_by_node [[1/2, 1/2 - 1/10^12], [0, 1]]
        = Except.error "Rows of the TPM must sum to 1."
    ∧ tpm_ndim [[1/2, 1/2 - 1/10^12], [0, 1]] = 2
    ∧ ([[1/2, 1/2 - 1/10^12], [0, 1]] : List (List ℚ)).length
        = (([[1/2, 1/2 - 1/10^12], [0, 1]] : List (List ℚ)).headD []).length
    ∧ (∀ r ∈ ([[1/2, 1/2 - 1/10^12], [0, 1]] : List (List ℚ)),
        |r.sum - 1| ≤ PRECISION) := by
  refine ⟨?_, by decide, by decide, ?_⟩
  · unfold state_by_state2state_by_node
    rw [if_neg (by decide), if_neg (by decide), if_pos ?_]
    have h1 : ([1/2, 1/2 - 1/10^12] : List ℚ).sum ≠ 1 := by
      simp only [List.sum_cons, List.sum_nil]
      norm_num
    have h2 : ([0, 1] : List ℚ).sum = 1 := by
      simp only [List.sum_cons, List.sum_nil]
      norm_num
    simp only [List.map, h1, h2, if_neg, if_pos, ite_true, ite_false,
      if_neg h1]
    simp only [np_allclose, List.headD, List.length, List.replicate,
      List.zip_cons_cons, List.zip_nil_right, List.all_cons, List.all_nil,
      absQ, PRECISION]
    norm_num
  intro r hr
  simp only [List.mem_cons, List.mem_singleton] at hr
  rcases hr with rfl | rfl | h
  · simp only [List.sum_cons, List.sum_nil, PRECISION]
    rw [abs_le]
    norm_num
  · simp only [List.sum_cons, List.sum_nil, PRECISION]
    rw [abs_le]
    norm_num
  · cases h

/-! ## Earth Mover's Distance (`utils.py`, `hamming_emd`)

`hamming_emd(d1, d2)` squeezes both distributions, then calls
`pyemd.emd(d1.ravel(), d2.ravel(), _hamming_matrix(d1.ndim))`.  The `pyemd`
solver is an external C++ library: its input validation (histograms of
unequal length are rejected with a `ValueError`) is modelled directly from
its documented contract, and the numeric value it returns is modelled by the
mathematical optimal-transport value — the infimum of the transport cost
over all couplings of the two histograms under the given ground-cost
matrix. -/

/-- A NumPy array: its shape, and its elements flattened in row-major (C)
order, so `ravel` is the identity on the data. -/
structure NDArray where
  shape : List Nat
  data : List ℚ

/-- `np.squeeze`: drop all singleton axes; the row-major element sequence is
unchanged. -/
def NDArray.squeeze (a : NDArray) : NDArray :=
  ⟨a.shape.filter (fun s => s != 1), a.data⟩

/-- `ravel`: the elements in row-major order. -/
def NDArray.ravel (a : NDArray) : List ℚ := a.data

/-- `ndim`: the number of axes. -/
def NDArray.ndim (a : NDArray) : Nat := a.shape.length

/-- Transport plans between two histograms of length `n`: nonnegative on the
index square, with the prescribed row and column marginals. -/
def isCoupling (n : Nat) (h₁ h₂ : List ℚ) (γ : Nat → Nat → ℝ) : Prop :=
  (∀ i j, i < n → j < n → 0 ≤ γ i j)
  ∧ (∀ i, i < n → (∑ j ∈ Finset.range n, γ i j) = ((h₁.getD i 0 : ℚ) : ℝ))
  ∧ (∀ j, j < n → (∑ i ∈ Finset.range n, γ i j) = ((h₂.getD j 0 : ℚ) : ℝ))

/-- Cost of a transport plan under a ground-cost matrix. -/
def couplingCost (n : Nat) (C : List (List ℚ)) (γ : Nat → Nat → ℝ) : ℝ :=
  ∑ i ∈ Finset.range n, ∑ j ∈ Finset.range n, γ i j * ((entryD C i j : ℚ) : ℝ)

/-- The Earth Mover's Distance value computed by the external solver,
modelled as the optimal-transport value. -/
noncomputable def emdValue (h₁ h₂ : List ℚ) (C : List (List ℚ)) : ℝ :=
  sInf (couplingCost h₁.length C '' {γ | isCoupling h₁.length h₁ h₂ γ})

/-- `pyemd.emd(first, second, matrix)`: histograms of unequal length are
rejected (the library's documented `ValueError`); otherwise the EMD value is
returned. -/
noncomputable def pyemd_emd (h₁ h₂ : List ℚ) (C : List (List ℚ)) :
    Except String ℝ :=
  if h₁.length ≠ h₂.length then Except.error "Histogram lengths must be equal"
  else Except.ok (emdValue h₁ h₂ C)

/-- `hamming_emd(d1, d2)` from `utils.py`. -/
noncomputable def hamming_emd (d1 d2 : NDArray) : Except String ℝ :=
  pyemd_emd d1.squeeze.ravel d2.squeeze.ravel
    (hamming_matrix d1.squeeze.ndim)

/-- Claim C5: `hamming_emd d1 d2` fails with a domain error whenever the two
input distributions, after squeezing singleton axes, do not have matching
flattened lengths. -/
theorem hamming_emd_length_mismatch (d1 d2 : NDArray)
    (h : d1.squeeze.ravel.length ≠ d2.squeeze.ravel.length) :
    hamming_emd d1 d2 = Except.error "Histogram lengths must be equal" := by
  unfold hamming_emd pyemd_emd
  rw [if_pos h]

theorem hamming_emd_length_mismatch_witness :
    hamming_emd ⟨[2], [1, 0]⟩ ⟨[2, 2], [1, 0, 0, 0]⟩
      = Except.error "Histogram lengths must be equal" :=
  hamming_emd_length_mismatch ⟨[2], [1, 0]⟩ ⟨[2, 2], [1, 0, 0, 0]⟩ (by decide)

/-- A shape all of whose axes are binary (after dropping singletons) has as
many states as `2 ^ (number of non-singleton axes)`. -/
theorem prod_eq_two_pow_filter (shape : List Nat)
    (h : ∀ s ∈ shape, s = 1 ∨ s = 2) :
    shape.prod = 2 ^ (shape.filter (fun s => s != 1)).length := by
  induction shape with
  | nil => rfl
  | cons s t ih =>
    have hs : s = 1 ∨ s = 2 := h s (by simp)
    have ht := ih (fun x hx => h x (by simp [hx]))
    rcases hs with rfl | rfl
    · simp [List.filter_cons, ht]
    · simp only [List.prod_cons, List.filter_cons]
      norm_num [ht, Nat.pow_succ]
      ring

theorem entryD_hamming_nonneg (m i j : Nat) (hi : i < 2 ^ m) (hj : j < 2 ^ m) :
    (0 : ℚ) ≤ entryD (hamming_matrix m) i j := by
  rw [hamming_matrix_entry m i j hi hj, hammingEntry_eq_popcount m i j hi hj]
  positivity

theorem entryD_hamming_diag (m i : Nat) (hi : i < 2 ^ m) :
    entryD (hamming_matrix m) i i = 0 := by
  rw [hamming_matrix_entry m i i hi hi, hammingEntry_eq_popcount m i i hi hi]
  simp [popcount_zero]

/-- The optimal-transport value between a histogram and itself, under a
ground cost that is nonnegative with zero diagonal, is exactly `0`. -/
theorem emdValue_self (h : List ℚ) (C : List (List ℚ))
    (hpos : ∀ x ∈ h, 0 ≤ x)
    (hC : ∀ i j, i < h.length → j < h.length → (0 : ℚ) ≤ entryD C i j)
    (hdiag : ∀ i, i < h.length → entryD C i i = 0) :
    emdValue h h C = 0 := by
  unfold emdValue
  set n := h.length with hn
  set γ₀ : Nat → Nat → ℝ :=
    fun i j => if i = j then ((h.getD i 0 : ℚ) : ℝ) else 0 with hγ₀
  have hgetD_nonneg : ∀ i, i < n → (0 : ℝ) ≤ ((h.getD i 0 : ℚ) : ℝ) := by
    intro i hi
    have hmem : h.getD i 0 ∈ h := by
      rw [List.getD_eq_getElem h 0 hi]
      exact List.getElem_mem hi
    exact_mod_cast hpos _ hmem
  have hcoupling : isCoupling n h h γ₀ := by
    refine ⟨?_, ?_, ?_⟩
    · intro i j hi _
      simp only [hγ₀]
      by_cases hij : i = j
      · rw [if_pos hij]
        exact hgetD_nonneg i hi
      · rw [if_neg hij]
    · intro i hi
      simp only [hγ₀]
      rw [Finset.sum_ite_eq (Finset.range n) i
        (fun _ => ((h.getD i 0 : ℚ) : ℝ))]
      simp [hi]
    · intro j hj
      simp only [hγ₀]
      rw [Finset.sum_ite_eq' (Finset.range n) j
        (fun i => ((h.getD i 0 : ℚ) : ℝ))]
      simp [hj]
  have hcost : couplingCost n C γ₀ = 0 := by
    unfold couplingCost
    apply Finset.sum_eq_zero
    intro i hi
    apply Finset.sum_eq_zero
    intro j hj
    simp only [hγ₀]
    by_cases hij : i = j
    · subst hij
      rw [hdiag i (Finset.mem_range.mp hi)]
      simp
    · rw [if_neg hij, zero_mul]
  have hmem0 : (0 : ℝ) ∈ couplingCost n C '' {γ | isCoupling n h h γ} :=
    ⟨γ₀, hcoupling, hcost⟩
  have hlb : ∀ x ∈ couplingCost n C '' {γ | isCoupling n h h γ}, (0 : ℝ) ≤ x := by
    rintro x ⟨γ, hγ, rfl⟩
    apply Finset.sum_nonneg
    intro i hi
    apply Finset.sum_nonneg
    intro j hj
    apply mul_nonneg
    · exact hγ.1 i j (Finset.mem_range.mp hi) (Finset.mem_range.mp hj)
    · have := hC i j (Finset.mem_range.mp hi) (Finset.mem_range.mp hj)
      exact_mod_cast this
  apply le_antisymm
  · exact csInf_le ⟨0, fun x hx => hlb x hx⟩ hmem0
  · exact le_csInf ⟨0, hmem0⟩ hlb

/-- Claim C7: for every valid repertoire `d` (a probability distribution with
one axis per node, possibly singleton axes for excluded nodes, nonnegative
entries summing to `1`), `hamming_emd d d` equals exactly `0`. -/
theorem hamming_emd_self (d : NDArray)
    (hshape : ∀ s ∈ d.shape, s = 1 ∨ s = 2)
    (hlen : d.data.length = d.shape.prod)
    (hpos : ∀ x ∈ d.data, 0 ≤ x)
    (hsum : d.data.sum = 1) :
    hamming_emd d d = Except.ok 0 := by
  unfold hamming_emd pyemd_emd
  rw [if_neg (by simp)]
  have hpow : d.squeeze.ravel.length = 2 ^ d.squeeze.ndim := by
    show d.data.length = 2 ^ (d.shape.filter (fun s => s != 1)).length
    rw [hlen, prod_eq_two_pow_filter d.shape hshape]
  rw [emdValue_self d.squeeze.ravel (hamming_matrix d.squeeze.ndim)
    (fun x hx => hpos x hx)
    (fun i j hi hj =>
      entryD_hamming_nonneg d.squeeze.ndim i j (hpow ▸ hi) (hpow ▸ hj))
    (fun i hi => entryD_hamming_diag d.squeeze.ndim i (hpow ▸ hi))]

theorem hamming_emd_self_witness :
    hamming_emd ⟨[2], [1, 0]⟩ ⟨[2], [1, 0]⟩ = Except.ok 0 :=
  hamming_emd_self ⟨[2], [1, 0]⟩
    (by decide)
    (by decide)
    (by
      intro x hx
      simp only [List.mem_cons, List.not_mem_nil, or_false] at hx
      rcases hx with rfl | rfl
      · norm_num
      · norm_num)
    (by simp)

/-! ## Content hashing of arrays (`utils.py`, `np_hash`)

`np_hash(a)` calls `np.ascontiguousarray(a)` — which rewrites the array's
memory buffer into row-major (C) order, leaving the logical content
unchanged — and feeds the resulting bytes to `hashlib.sha1`.  A
two-dimensional array is modelled by its shape, its memory buffer (a flat
element list), and a flag recording whether that buffer is laid out in
row-major (C) or column-major (Fortran) order; SHA-1, which depends only on
the byte string it is fed, is modelled by universally quantifying the
theorem over every digest function of the buffer. -/

inductive MemOrder where
  | rowMajor
  | colMajor

/-- A two-dimensional NumPy array with an explicit memory layout: `mem`
lists the elements in the order they sit in memory. -/
structure NpArray where
  rows : Nat
  cols : Nat
  mem : List Int
  order : MemOrder

/-- `np.ascontiguousarray`: read the buffer according to its layout and
produce the row-major element sequence. -/
def ascontiguousarray (a : NpArray) : List Int :=
  match a.order with
  | .rowMajor => a.mem
  | .colMajor =>
    (List.range a.rows).flatMap (fun i =>
      (List.range a.cols).map (fun j => a.mem.getD (j * a.rows + i) 0))

/-- `np_hash`: digest of the C-ordered buffer (the digest argument models
`hashlib.sha1`, which depends only on the bytes it is fed). -/
def np_hash (digest : List Int → Nat) (a : NpArray) : Nat :=
  digest (ascontiguousarray a)

/-- A C-ordered copy of the logical matrix `entry`. -/
def cCopy (rows cols : Nat) (entry : Nat → Nat → Int) : NpArray :=
  ⟨rows, cols,
    (List.range rows).flatMap (fun i => (List.range cols).map (entry i)),
    .rowMajor⟩

/-- A Fortran-ordered copy of the same logical matrix: the buffer lists the
elements column by column. -/
def fCopy (rows cols : Nat) (entry : Nat → Nat → Int) : NpArray :=
  ⟨rows, cols,
    (List.range cols).flatMap (fun j =>
      (List.range rows).map (fun i => entry i j)),
    .colMajor⟩

/-- Indexing into a concatenation of `m` equal-length blocks. -/
theorem flatMap_blocks_getD (d : Int) (f : Nat → List Int) (r : Nat)
    (hr : ∀ j, (f j).length = r) : ∀ (m j i : Nat), j < m → i < r →
    ((List.range m).flatMap f).getD (j * r + i) d = (f j).getD i d := by
  intro m
  induction m with
  | zero => intro j i hj _; omega
  | succ m ih =>
    intro j i hj hi
    rw [List.range_succ, List.flatMap_append]
    have hlen : ((List.range m).flatMap f).length = m * r := by
      rw [List.length_flatMap]
      have hmap : (List.range m).map (List.length ∘ f)
          = (List.range m).map (fun _ => r) := by
        apply List.map_congr_left
        intro a _
        exact hr a
      rw [hmap, List.map_const']
      simp [Nat.mul_comm]
    by_cases hjm : j < m
    · have hbound : j * r + i < m * r := by
        calc j * r + i < j * r + r := Nat.add_lt_add_left hi (j * r)
        _ = (j + 1) * r := by ring
        _ ≤ m * r := Nat.mul_le_mul_right r hjm
      have hidx : j * r + i < ((List.range m).flatMap f).length := by
        rw [hlen]; exact hbound
      rw [List.getD_eq_getElem?_getD, List.getElem?_append, if_pos hidx,
        ← List.getD_eq_getElem?_getD, ih j i hjm hi]
    · have hjeq : j = m := by omega
      subst hjeq
      have hge : ((List.range j).flatMap f).length ≤ j * r + i := by
        rw [hlen]; exact Nat.le_add_right _ _
      simp only [List.flatMap_cons, List.flatMap_nil, List.append_nil]
      rw [List.getD_eq_getElem?_getD, List.getElem?_append,
        if_neg (Nat.not_lt.mpr hge), hlen, Nat.add_sub_cancel_left,
        ← List.getD_eq_getElem?_getD]

/-- Claim C8: `np_hash` depends only on the element content of the array and
not on its memory layout: for every logical matrix, hashing a C-ordered copy
and a Fortran-ordered copy yields the same digest value, whatever (byte-)
digest function `hashlib.sha1` computes on the contiguous buffer. -/
theorem np_hash_layout_independent (digest : List Int → Nat)
    (rows cols : Nat) (entry : Nat → Nat → Int) :
    np_hash digest (cCopy rows cols entry)
      = np_hash digest (fCopy rows cols entry) := by
  unfold np_hash
  congr 1
  show (List.range rows).flatMap (fun i => (List.range cols).map (entry i))
      = (List.range rows).flatMap (fun i =>
          (List.range cols).map (fun j =>
            ((List.range cols).flatMap (fun j' =>
              (List.range rows).map (fun i' => entry i' j'))).getD
                (j * rows + i) 0))
  symm
  simp only [List.flatMap_def]
  congr 1
  apply List.map_congr_left
  intro i hi
  apply List.map_congr_left
  intro j hj
  rw [← List.flatMap_def]
  rw [flatMap_blocks_getD 0 _ rows (fun j' => by simp) cols j i
    (List.mem_range.mp hj) (List.mem_range.mp hi)]
  simp [List.getD_eq_getElem?_getD, List.getElem?_map, List.getElem?_range,
    List.mem_range.mp hi]

/-! ## JSON serialization (`jsonify.py`)

Python values reachable through the serializer are modelled by `PyVal`
(numbers, strings, lists, tuples, dicts, and PyPhi model objects — a model
is identified by its class name and its field mapping); JSON parse trees by
`JsonVal`.  `dumps` is modelled up to the JSON text layer: `jsonify` produces
the `JsonVal` that the emitted text parses back to.  `loads` follows
`json.loads` with `PyPhiJSONDecoder`: scalars and arrays are decoded
structurally (the `object_hook` is applied only to JSON *objects*, as the
`json` module specifies), and each decoded object passes through
`_load_object`, which rebuilds the dict with hooked values, converts lists
to tuples, and reconstructs a model — after a version check — whenever the
`__class__` key is present.  Model classes themselves live outside `src/`:
reconstruction (`from_json` / keyword construction) is modelled from the
spec's stable attribute contract as rebuilding the model from its field
mapping, and `pyphi.__version__` is a parameter `cur` of the decoder. -/

inductive JsonVal where
  | jnum (q : ℚ)
  | jstr (s : String)
  | jarr (xs : List JsonVal)
  | jobj (kvs : List (String × JsonVal))

inductive PyVal where
  | pnum (q : ℚ)
  | pstr (s : String)
  | plist (xs : List PyVal)
  | ptuple (xs : List PyVal)
  | pdict (kvs : List (String × PyVal))
  | pmodel (name : String) (fields : List (String × PyVal))

/-- The registry built by `_loadable_models()`. -/
def loadable_models : List String :=
  ["Network", "Subsystem", "Cut", "Part", "Bipartition", "Mip", "Mice",
   "Concept", "Constellation", "BigMip"]

mutual

/-- `jsonify`: recursively produce the JSON-encodable form; a model
contributes its `to_json` field mapping plus the `__class__` and
`__version__` metadata keys. -/
def jsonify (ver : String) : PyVal → JsonVal
  | .pnum q => .jnum q
  | .pstr s => .jstr s
  | .plist xs => .jarr (jsonifyList ver xs)
  | .ptuple xs => .jarr (jsonifyList ver xs)
  | .pdict kvs => .jobj (jsonifyKVs ver kvs)
  | .pmodel name fields =>
    .jobj (jsonifyKVs ver fields
      ++ [("__class__", .jstr name), ("__version__", .jstr ver)])

def jsonifyList (ver : String) : List PyVal → List JsonVal
  | [] => []
  | x :: xs => jsonify ver x :: jsonifyList ver xs

def jsonifyKVs (ver : String) :
    List (String × PyVal) → List (String × JsonVal)
  | [] => []
  | (k, v) :: rest => (k, jsonify ver v) :: jsonifyKVs ver rest

end

/-- `dumps obj` up to the JSON text layer: the parse tree of the emitted
stream. -/
def dumps (ver : String) (obj : PyVal) : JsonVal := jsonify ver obj

mutual

/-- `_load_object` (the decoder's `object_hook`), with `cur` standing for
`pyphi.__version__`: a dict is rebuilt with hooked values; if it carries the
`__class__` key, the class is looked up in the registry (`KeyError` if
absent, as Python raises on a failed dict lookup), `_check_version` raises
`JSONVersionError` unless the embedded `__version__` equals the current one,
and the model is rebuilt from the remaining field mapping; a list becomes a
tuple of hooked items; anything else is returned unchanged. -/
def load_object (cur : String) : PyVal → Except String PyVal
  | .pdict kvs =>
    match loadKVs cur kvs with
    | .error e => .error e
    | .ok kvs' =>
      if (kvs'.map Prod.fst).contains "__class__" then
        match List.lookup "__class__" kvs' with
        | some (.pstr name) =>
          if loadable_models.contains name then
            match List.lookup "__version__" kvs' with
            | some (.pstr ver) =>
              if ver = cur then
                .ok (.pmodel name (kvs'.filter (fun kv =>
                  kv.1 != "__class__" && kv.1 != "__version__")))
              else .error "JSONVersionError"
            | some _ => .error "JSONVersionError"
            | none => .error "KeyError"
          else .error "KeyError"
        | some _ => .error "KeyError"
        | none => .error "KeyError"
      else .ok (.pdict kvs')
  | .plist xs =>
    match loadList cur xs with
    | .error e => .error e
    | .ok ys => .ok (.ptuple ys)
  | v => .ok v

def loadList (cur : String) : List PyVal → Except String (List PyVal)
  | [] => .ok []
  | x :: xs =>
    match load_object cur x with
    | .error e => .error e
    | .ok y =>
      match loadList cur xs with
      | .error e => .error e
      | .ok ys => .ok (y :: ys)

def loadKVs (cur : String) :
    List (String × PyVal) → Except String (List (String × PyVal))
  | [] => .ok []
  | (k, v) :: rest =>
    match load_object cur v with
    | .error e => .error e
    | .ok w =>
      match loadKVs cur rest with
      | .error e => .error e
      | .ok rest' => .ok ((k, w) :: rest')

end

mutual

/-- `json.loads` with `PyPhiJSONDecoder`: arrays decode to lists of decoded
items (no hook), objects decode to dicts of decoded values and then pass
through the `object_hook`. -/
def decode_val (cur : String) : JsonVal → Except String PyVal
  | .jnum q => .ok (.pnum q)
  | .jstr s => .ok (.pstr s)
  | .jarr xs =>
    match decodeList cur xs with
    | .error e => .error e
    | .ok ys => .ok (.plist ys)
  | .jobj kvs =>
    match decodeKVs cur kvs with
    | .error e => .error e
    | .ok kvs' => load_object cur (.pdict kvs')

def decodeList (cur : String) : List JsonVal → Except String (List PyVal)
  | [] => .ok []
  | x :: xs =>
    match decode_val cur x with
    | .error e => .error e
    | .ok y =>
      match decodeList cur xs with
      | .error e => .error e
      | .ok ys => .ok (y :: ys)

def decodeKVs (cur : String) :
    List (String × JsonVal) → Except String (List (String × PyVal))
  | [] => .ok []
  | (k, v) :: rest =>
    match decode_val cur v with
    | .error e => .error e
    | .ok w =>
      match decodeKVs cur rest with
      | .error e => .error e
      | .ok rest' => .ok ((k, w) :: rest')

end

/-- `loads`: deserialize a JSON stream (given as its parse tree). -/
def loads (cur : String) (j : JsonVal) : Except String PyVal := decode_val cur j

mutual

/-- No JSON object below this value carries the `__class__` key (so decoding
never attempts a model reconstruction inside it). -/
def noClass : JsonVal → Bool
  | .jnum _ => true
  | .jstr _ => true
  | .jarr xs => noClassList xs
  | .jobj kvs =>
    !((kvs.map Prod.fst).contains "__class__") && noClassKVs kvs

def noClassList : List JsonVal → Bool
  | [] => true
  | x :: xs => noClass x && noClassList xs

def noClassKVs : List (String × JsonVal) → Bool
  | [] => true
  | (_, v) :: rest => noClass v && noClassKVs rest

end

mutual

/-- Values on which the `object_hook` cannot fail: lists of such values, and
dicts of such values without the `__class__` key; scalars, tuples and models
are returned by the hook unchanged. -/
def loadSafe : PyVal → Bool
  | .pnum _ => true
  | .pstr _ => true
  | .ptuple _ => true
  | .pmodel _ _ => true
  | .plist xs => loadSafeList xs
  | .pdict kvs =>
    !((kvs.map Prod.fst).contains "__class__") && loadSafeKVs kvs

def loadSafeList : List PyVal → Bool
  | [] => true
  | x :: xs => loadSafe x && loadSafeList xs

def loadSafeKVs : List (String × PyVal) → Bool
  | [] => true
  | (_, v) :: rest => loadSafe v && loadSafeKVs rest

end

mutual

theorem load_ok (cur : String) (p : PyVal) (hp : loadSafe p = true) :
    ∃ r, load_object cur p = .ok r ∧ loadSafe r = true := by
  match p with
  | .pnum q => exact ⟨.pnum q, rfl, rfl⟩
  | .pstr s => exact ⟨.pstr s, rfl, rfl⟩
  | .ptuple xs => exact ⟨.ptuple xs, rfl, rfl⟩
  | .pmodel n fs => exact ⟨.pmodel n fs, rfl, rfl⟩
  | .plist xs =>
    rw [loadSafe] at hp
    obtain ⟨ys, hys, hsafe⟩ := loadList_ok cur xs hp
    exact ⟨.ptuple ys, by rw [load_object, hys], rfl⟩
  | .pdict kvs =>
    rw [loadSafe, Bool.and_eq_true] at hp
    obtain ⟨kvs', hkvs, hkeys, hsafe⟩ := loadKVs_ok cur kvs hp.2
    refine ⟨.pdict kvs', ?_, ?_⟩
    · have hcf : ((kvs'.map Prod.fst).contains "__class__") = false := by
        rw [hkeys]
        simpa using hp.1
      rw [load_object, hkvs]
      show (if ((kvs'.map Prod.fst).contains "__class__") = true then _ else _)
        = Except.ok (PyVal.pdict kvs')
      rw [if_neg (by rw [hcf]; simp)]
    · rw [loadSafe, Bool.and_eq_true, hkeys]
      exact ⟨hp.1, hsafe⟩

theorem loadList_ok (cur : String) (xs : List PyVal)
    (hp : loadSafeList xs = true) :
    ∃ ys, loadList cur xs = .ok ys ∧ loadSafeList ys = true := by
  match xs with
  | [] => exact ⟨[], rfl, rfl⟩
  | x :: rest =>
    rw [loadSafeList, Bool.and_eq_true] at hp
    obtain ⟨y, hy, hys⟩ := load_ok cur x hp.1
    obtain ⟨ys, hrest, hsafe⟩ := loadList_ok cur rest hp.2
    refine ⟨y :: ys, by rw [loadList, hy, hrest], ?_⟩
    rw [loadSafeList, Bool.and_eq_true]
    exact ⟨hys, hsafe⟩

theorem loadKVs_ok (cur : String) (kvs : List (String × PyVal))
    (hp : loadSafeKVs kvs = true) :
    ∃ kvs', loadKVs cur kvs = .ok kvs'
      ∧ kvs'.map Prod.fst = kvs.map Prod.fst ∧ loadSafeKVs kvs' = true := by
  match kvs with
  | [] => exact ⟨[], rfl, rfl, rfl⟩
  | (k, v) :: rest =>
    rw [loadSafeKVs, Bool.and_eq_true] at hp
    obtain ⟨w, hw, hws⟩ := load_ok cur v hp.1
    obtain ⟨rest', hrest, hkeys, hsafe⟩ := loadKVs_ok cur rest hp.2
    refine ⟨(k, w) :: rest', by rw [loadKVs, hw, hrest], ?_, ?_⟩
    · simp [hkeys]
    · rw [loadSafeKVs, Bool.and_eq_true]
      exact ⟨hws, hsafe⟩

end

mutual

theorem decode_ok (cur : String) (v : JsonVal) (hv : noClass v = true) :
    ∃ p, decode_val cur v = .ok p ∧ loadSafe p = true := by
  match v with
  | .jnum q => exact ⟨.pnum q, rfl, rfl⟩
  | .jstr s => exact ⟨.pstr s, rfl, rfl⟩
  | .jarr xs =>
    rw [noClass] at hv
    obtain ⟨ys, hys, hsafe⟩ := decodeList_ok cur xs hv
    exact ⟨.plist ys, by rw [decode_val, hys], hsafe⟩
  | .jobj kvs =>
    rw [noClass, Bool.and_eq_true] at hv
    obtain ⟨kvs', hkvs, hkeys, hsafe⟩ := decodeKVs_ok cur kvs hv.2
    have hdictsafe : loadSafe (.pdict kvs') = true := by
      rw [loadSafe, Bool.and_eq_true, hkeys]
      exact ⟨hv.1, hsafe⟩
    obtain ⟨r, hr, hrs⟩ := load_ok cur (.pdict kvs') hdictsafe
    refine ⟨r, ?_, hrs⟩
    rw [decode_val, hkvs]
    simpa using hr

theorem decodeList_ok (cur : String) (xs : List JsonVal)
    (hv : noClassList xs = true) :
    ∃ ys, decodeList cur xs = .ok ys ∧ loadSafeList ys = true := by
  match xs with
  | [] => exact ⟨[], rfl, rfl⟩
  | x :: rest =>
    rw [noClassList, Bool.and_eq_true] at hv
    obtain ⟨y, hy, hys⟩ := decode_ok cur x hv.1
    obtain ⟨ys, hrest, hsafe⟩ := decodeList_ok cur rest hv.2
    refine ⟨y :: ys, by rw [decodeList, hy, hrest], ?_⟩
    rw [loadSafeList, Bool.and_eq_true]
    exact ⟨hys, hsafe⟩

theorem decodeKVs_ok (cur : String) (kvs : List (String × JsonVal))
    (hv : noClassKVs kvs = true) :
    ∃ kvs', decodeKVs cur kvs = .ok kvs'
      ∧ kvs'.map Prod.fst = kvs.map Prod.fst ∧ loadSafeKVs kvs' = true := by
  match kvs with
  | [] => exact ⟨[], rfl, rfl, rfl⟩
  | (k, v) :: rest =>
    rw [noClassKVs, Bool.and_eq_true] at hv
    obtain ⟨w, hw, hws⟩ := decode_ok cur v hv.1
    obtain ⟨rest', hrest, hkeys, hsafe⟩ := decodeKVs_ok cur rest hv.2
    refine ⟨(k, w) :: rest', by rw [decodeKVs, hw, hrest], ?_, ?_⟩
    · simp [hkeys]
    · rw [loadSafeKVs, Bool.and_eq_true]
      exact ⟨hws, hsafe⟩

end

theorem decodeKVs_append (cur : String) (b : List (String × JsonVal))
    (b' : List (String × PyVal)) (hb : decodeKVs cur b = .ok b') :
    ∀ (a : List (String × JsonVal)) (a' : List (String × PyVal)),
    decodeKVs cur a = .ok a' → decodeKVs cur (a ++ b) = .ok (a' ++ b') := by
  intro a
  induction a with
  | nil =>
    intro a' ha
    rw [decodeKVs] at ha
    cases ha
    simpa using hb
  | cons kv rest ih =>
    intro a' ha
    obtain ⟨k, v⟩ := kv
    rw [decodeKVs] at ha
    cases hdv : decode_val cur v with
    | error e => rw [hdv] at ha; cases ha
    | ok w =>
      rw [hdv] at ha
      cases hrest : decodeKVs cur rest with
      | error e => rw [hrest] at ha; cases ha
      | ok rest' =>
        rw [hrest] at ha
        cases ha
        rw [List.cons_append, decodeKVs, hdv, ih rest' hrest]
        rfl

theorem loadKVs_append (cur : String) (b : List (String × PyVal))
    (b' : List (String × PyVal)) (hb : loadKVs cur b = .ok b') :
    ∀ (a a' : List (String × PyVal)),
    loadKVs cur a = .ok a' → loadKVs cur (a ++ b) = .ok (a' ++ b') := by
  intro a
  induction a with
  | nil =>
    intro a' ha
    rw [loadKVs] at ha
    cases ha
    simpa using hb
  | cons kv rest ih =>
    intro a' ha
    obtain ⟨k, v⟩ := kv
    rw [loadKVs] at ha
    cases hdv : load_object cur v with
    | error e => rw [hdv] at ha; cases ha
    | ok w =>
      rw [hdv] at ha
      cases hrest : loadKVs cur rest with
      | error e => rw [hrest] at ha; cases ha
      | ok rest' =>
        rw [hrest] at ha
        cases ha
        rw [List.cons_append, loadKVs, hdv, ih rest' hrest]
        rfl

theorem lookup_append_of_not_mem (k : String) (l₂ : List (String × PyVal)) :
    ∀ l₁ : List (String × PyVal), k ∉ l₁.map Prod.fst →
    List.lookup k (l₁ ++ l₂) = List.lookup k l₂ := by
  intro l₁
  induction l₁ with
  | nil => intro _; rfl
  | cons kv rest ih =>
    intro h
    obtain ⟨k₁, v₁⟩ := kv
    simp only [List.map_cons, List.mem_cons, not_or] at h
    have hne : (k == k₁) = false := by simpa using h.1
    simp only [List.cons_append, List.lookup, hne]
    exact ih h.2

theorem filter_keys_eq_self (l : List (String × PyVal))
    (h : ∀ kv ∈ l, kv.1 ≠ "__class__" ∧ kv.1 ≠ "__version__") :
    l.filter (fun kv => kv.1 != "__class__" && kv.1 != "__version__") = l := by
  apply List.filter_eq_self.mpr
  intro kv hkv
  have hkv' := h kv hkv
  simp [hkv'.1, hkv'.2]

/-- Claim C9: deserializing a JSON stream containing a PyPhi model object
whose embedded `__version__` metadata differs from the current PyPhi version
fails with the named error `JSONVersionError` rather than silently producing
an object; when the version matches, decoding reconstructs the model from
its field mapping (same field names, values decoded).  `fields` are the
model's serialized fields (which, being produced by `to_json` of ordinary
models, do not themselves carry `__class__` metadata). -/
theorem json_version_check (cur ver name : String)
    (fields : List (String × JsonVal))
    (hname : name ∈ loadable_models)
    (hcKey : "__class__" ∉ fields.map Prod.fst)
    (hvKey : "__version__" ∉ fields.map Prod.fst)
    (hclean : noClassKVs fields = true) :
    (ver ≠ cur →
      loads cur (.jobj (fields
          ++ [("__class__", .jstr name), ("__version__", .jstr ver)]))
        = .error "JSONVersionError")
    ∧ (ver = cur → ∃ fs,
      loads cur (.jobj (fields
          ++ [("__class__", .jstr name), ("__version__", .jstr ver)]))
        = .ok (.pmodel name fs)
      ∧ fs.map Prod.fst = fields.map Prod.fst) := by
  obtain ⟨fields', hdec, hkeys1, hsafe1⟩ := decodeKVs_ok cur fields hclean
  have htail : decodeKVs cur
      [("__class__", JsonVal.jstr name), ("__version__", JsonVal.jstr ver)]
      = .ok [("__class__", PyVal.pstr name), ("__version__", PyVal.pstr ver)] := by
    rw [decodeKVs]
    rw [show decode_val cur (.jstr name) = .ok (.pstr name) from rfl]
    rw [decodeKVs]
    rw [show decode_val cur (.jstr ver) = .ok (.pstr ver) from rfl]
    rw [decodeKVs]
  have hdecall := decodeKVs_append cur _ _ htail fields fields' hdec
  obtain ⟨fields'', hload, hkeys2, hsafe2⟩ := loadKVs_ok cur fields' hsafe1
  have htail2 : loadKVs cur
      [("__class__", PyVal.pstr name), ("__version__", PyVal.pstr ver)]
      = .ok [("__class__", PyVal.pstr name), ("__version__", PyVal.pstr ver)] := by
    rw [loadKVs]
    rw [show load_object cur (.pstr name) = .ok (.pstr name) from rfl]
    rw [loadKVs]
    rw [show load_object cur (.pstr ver) = .ok (.pstr ver) from rfl]
    rw [loadKVs]
  have hloadall := loadKVs_append cur _ _ htail2 fields' fields'' hload
  have hkf : fields''.map Prod.fst = fields.map Prod.fst := hkeys2.trans hkeys1
  have hnc : "__class__" ∉ fields''.map Prod.fst := by rw [hkf]; exact hcKey
  have hnv : "__version__" ∉ fields''.map Prod.fst := by rw [hkf]; exact hvKey
  have hcont : (((fields''
      ++ [("__class__", PyVal.pstr name), ("__version__", PyVal.pstr ver)]).map
        Prod.fst).contains "__class__") = true := by
    apply List.elem_eq_true_of_mem
    simp
  have hl1 : List.lookup "__class__" (fields''
      ++ [("__class__", PyVal.pstr name), ("__version__", PyVal.pstr ver)])
      = some (.pstr name) := by
    rw [lookup_append_of_not_mem _ _ _ hnc]
    rfl
  have hl2 : List.lookup "__version__" (fields''
      ++ [("__class__", PyVal.pstr name), ("__version__", PyVal.pstr ver)])
      = some (.pstr ver) := by
    rw [lookup_append_of_not_mem _ _ _ hnv]
    rw [List.lookup, show ("__version__" == "__class__") = false from rfl]
    rfl
  have hreg : loadable_models.contains name = true :=
    List.elem_eq_true_of_mem hname
  have hfilter : (fields''
      ++ [("__class__", PyVal.pstr name), ("__version__", PyVal.pstr ver)]).filter
        (fun kv => kv.1 != "__class__" && kv.1 != "__version__") = fields'' := by
    rw [List.filter_append]
    have h1 := filter_keys_eq_self fields'' (by
      intro kv hkv
      have hmem : kv.1 ∈ fields''.map Prod.fst := List.mem_map_of_mem Prod.fst hkv
      exact ⟨fun hc => hnc (hc ▸ hmem), fun hc => hnv (hc ▸ hmem)⟩)
    rw [h1]
    rw [show ([("__class__", PyVal.pstr name),
        ("__version__", PyVal.pstr ver)].filter
        (fun kv => kv.1 != "__class__" && kv.1 != "__version__")) = [] from rfl]
    rw [List.append_nil]
  have hmain : loads cur (.jobj (fields
      ++ [("__class__", .jstr name), ("__version__", .jstr ver)]))
      = if ver = cur then .ok (.pmodel name fields'')
        else .error "JSONVersionError" := by
    rw [loads, decode_val, hdecall]
    show load_object cur (.pdict _) = _
    rw [load_object, hloadall]
    show (if _ = true then _ else _) = _
    rw [if_pos hcont, hl1]
    show (if _ = true then _ else _) = _
    rw [if_pos hreg, hl2]
    show (if ver = cur then _ else _) = _
    rw [hfilter]
  constructor
  · intro hne
    rw [hmain, if_neg hne]
  · intro heq
    exact ⟨fields'', by rw [hmain, if_pos heq], hkf⟩

theorem json_version_check_witness :
    ("0.8.1" ≠ "1.0.0" →
      loads "1.0.0" (.jobj ([("severed", JsonVal.jnum 0)]
          ++ [("__class__", .jstr "Cut"), ("__version__", .jstr "0.8.1")]))
        = .error "JSONVersionError")
    ∧ ("0.8.1" = "1.0.0" → ∃ fs,
      loads "1.0.0" (.jobj ([("severed", JsonVal.jnum 0)]
          ++ [("__class__", .jstr "Cut"), ("__version__", .jstr "0.8.1")]))
        = .ok (.pmodel "Cut" fs)
      ∧ fs.map Prod.fst = [("severed", JsonVal.jnum 0)].map Prod.fst) :=
  json_version_check "1.0.0" "0.8.1" "Cut" [("severed", JsonVal.jnum 0)]
    (by decide) (by decide) (by decide) (by rfl)

mutual

/-- No Python list anywhere inside the value. -/
def listFree : PyVal → Bool
  | .pnum _ => true
  | .pstr _ => true
  | .plist _ => false
  | .ptuple xs => listFreeList xs
  | .pdict kvs => listFreeKVs kvs
  | .pmodel _ fields => listFreeKVs fields

def listFreeList : List PyVal → Bool
  | [] => true
  | x :: xs => listFree x && listFreeList xs

def listFreeKVs : List (String × PyVal) → Bool
  | [] => true
  | (_, v) :: rest => listFree v && listFreeKVs rest

end

mutual

/-- Every tuple and every model inside the value is already list-free (the
invariant of values built by the decoder: the hook never looks inside
tuples or models again, so any list below one would survive). -/
def tupleClean : PyVal → Bool
  | .pnum _ => true
  | .pstr _ => true
  | .plist xs => tupleCleanList xs
  | .ptuple xs => listFreeList xs
  | .pdict kvs => tupleCleanKVs kvs
  | .pmodel _ fields => listFreeKVs fields

def tupleCleanList : List PyVal → Bool
  | [] => true
  | x :: xs => tupleClean x && tupleCleanList xs

def tupleCleanKVs : List (String × PyVal) → Bool
  | [] => true
  | (_, v) :: rest => tupleClean v && tupleCleanKVs rest

end

mutual

theorem listFree_tupleClean (p : PyVal) (h : listFree p = true) :
    tupleClean p = true := by
  match p with
  | .pnum q => rfl
  | .pstr s => rfl
  | .plist xs => rw [listFree] at h; cases h
  | .ptuple xs => exact h
  | .pdict kvs =>
    rw [listFree] at h
    rw [tupleClean]
    exact listFree_tupleCleanKVs kvs h
  | .pmodel n fields => exact h

theorem listFree_tupleCleanKVs (kvs : List (String × PyVal))
    (h : listFreeKVs kvs = true) : tupleCleanKVs kvs = true := by
  match kvs with
  | [] => rfl
  | (k, v) :: rest =>
    rw [listFreeKVs, Bool.and_eq_true] at h
    rw [tupleCleanKVs, Bool.and_eq_true]
    exact ⟨listFree_tupleClean v h.1, listFree_tupleCleanKVs rest h.2⟩

end

theorem listFreeKVs_mem (kvs : List (String × PyVal))
    (h : listFreeKVs kvs = true) : ∀ kv ∈ kvs, listFree kv.2 = true := by
  induction kvs with
  | nil => intro kv hkv; cases hkv
  | cons kv₁ rest ih =>
    obtain ⟨k, v⟩ := kv₁
    rw [listFreeKVs, Bool.and_eq_true] at h
    intro kv hkv
    rcases List.mem_cons.mp hkv with rfl | hmem
    · exact h.1
    · exact ih h.2 kv hmem

theorem listFreeKVs_filter (p : String × PyVal → Bool)
    (kvs : List (String × PyVal)) (h : listFreeKVs kvs = true) :
    listFreeKVs (kvs.filter p) = true := by
  induction kvs with
  | nil => rfl
  | cons kv rest ih =>
    obtain ⟨k, v⟩ := kv
    rw [listFreeKVs, Bool.and_eq_true] at h
    rw [List.filter_cons]
    by_cases hp : p (k, v) = true
    · rw [if_pos hp, listFreeKVs, Bool.and_eq_true]
      exact ⟨h.1, ih h.2⟩
    · rw [if_neg hp]
      exact ih h.2

theorem load_object_pdict (cur : String) (kvs kvs' : List (String × PyVal))
    (h : loadKVs cur kvs = .ok kvs') :
    load_object cur (.pdict kvs)
      = if ((kvs'.map Prod.fst).contains "__class__") = true then
          match List.lookup "__class__" kvs' with
          | some (.pstr name) =>
            if loadable_models.contains name = true then
              match List.lookup "__version__" kvs' with
              | some (.pstr ver) =>
                if ver = cur then
                  .ok (.pmodel name (kvs'.filter (fun kv =>
                    kv.1 != "__class__" && kv.1 != "__version__")))
                else .error "JSONVersionError"
              | some _ => .error "JSONVersionError"
              | none => .error "KeyError"
            else .error "KeyError"
          | some _ => .error "KeyError"
          | none => .error "KeyError"
        else .ok (.pdict kvs') := by
  rw [load_object, h]

mutual

theorem load_listFree (cur : String) (p : PyVal) (hp : tupleClean p = true) :
    ∀ r, load_object cur p = .ok r → listFree r = true := by
  match p with
  | .pnum q =>
    intro r hr
    rw [show load_object cur (.pnum q) = Except.ok (.pnum q) from rfl] at hr
    cases hr
    rfl
  | .pstr s =>
    intro r hr
    rw [show load_object cur (.pstr s) = Except.ok (.pstr s) from rfl] at hr
    cases hr
    rfl
  | .ptuple xs =>
    intro r hr
    rw [show load_object cur (.ptuple xs) = Except.ok (.ptuple xs) from rfl] at hr
    cases hr
    exact hp
  | .pmodel n fields =>
    intro r hr
    rw [show load_object cur (.pmodel n fields)
        = Except.ok (.pmodel n fields) from rfl] at hr
    cases hr
    exact hp
  | .plist xs =>
    intro r hr
    rw [tupleClean] at hp
    rw [load_object] at hr
    cases hxs : loadList cur xs with
    | error e => rw [hxs] at hr; cases hr
    | ok ys =>
      rw [hxs] at hr
      cases hr
      rw [listFree]
      exact loadList_listFree cur xs hp ys hxs
  | .pdict kvs =>
    intro r hr
    rw [tupleClean] at hp
    cases hkvs : loadKVs cur kvs with
    | error e => rw [load_object, hkvs] at hr; cases hr
    | ok kvs' =>
      rw [load_object_pdict cur kvs kvs' hkvs] at hr
      have hlf : listFreeKVs kvs' = true := loadKVs_listFree cur kvs hp kvs' hkvs
      by_cases hcont : ((kvs'.map Prod.fst).contains "__class__") = true
      · rw [if_pos hcont] at hr
        cases hcls : List.lookup "__class__" kvs' with
        | none => rw [hcls] at hr; cases hr
        | some cv =>
          rw [hcls] at hr
          match cv with
          | .pnum _ | .plist _ | .ptuple _ | .pdict _ | .pmodel _ _ => cases hr
          | .pstr cname =>
            replace hr : (if loadable_models.contains cname = true then
                (match List.lookup "__version__" kvs' with
                 | some (PyVal.pstr ver) =>
                   if ver = cur then
                     Except.ok (PyVal.pmodel cname (kvs'.filter (fun kv =>
                       kv.1 != "__class__" && kv.1 != "__version__")))
                   else Except.error "JSONVersionError"
                 | some _ => Except.error "JSONVersionError"
                 | none => Except.error "KeyError")
              else Except.error "KeyError") = Except.ok r := hr
            by_cases hreg : (loadable_models.contains cname) = true
            · rw [if_pos hreg] at hr
              cases hver : List.lookup "__version__" kvs' with
              | none => rw [hver] at hr; cases hr
              | some vv =>
                rw [hver] at hr
                match vv with
                | .pnum _ | .plist _ | .ptuple _ | .pdict _ | .pmodel _ _ =>
                  cases hr
                | .pstr vs =>
                  replace hr : (if vs = cur then
                      Except.ok (PyVal.pmodel cname (kvs'.filter (fun kv =>
                        kv.1 != "__class__" && kv.1 != "__version__")))
                    else Except.error "JSONVersionError") = Except.ok r := hr
                  by_cases hveq : vs = cur
                  · rw [if_pos hveq] at hr
                    cases hr
                    rw [listFree]
                    exact listFreeKVs_filter _ kvs' hlf
                  · rw [if_neg hveq] at hr
                    cases hr
            · rw [if_neg hreg] at hr
              cases hr
      · rw [if_neg hcont] at hr
        cases hr
        rw [listFree]
        exact hlf

theorem loadList_listFree (cur : String) (xs : List PyVal)
    (hp : tupleCleanList xs = true) :
    ∀ ys, loadList cur xs = .ok ys → listFreeList ys = true := by
  match xs with
  | [] =>
    intro ys hys
    rw [loadList] at hys
    cases hys
    rfl
  | x :: rest =>
    intro ys hys
    rw [tupleCleanList, Bool.and_eq_true] at hp
    rw [loadList] at hys
    cases hx : load_object cur x with
    | error e => rw [hx] at hys; cases hys
    | ok y =>
      rw [hx] at hys
      cases hrest : loadList cur rest with
      | error e => rw [hrest] at hys; cases hys
      | ok ys' =>
        rw [hrest] at hys
        cases hys
        rw [listFreeList, Bool.and_eq_true]
        exact ⟨load_listFree cur x hp.1 y hx,
          loadList_listFree cur rest hp.2 ys' hrest⟩

theorem loadKVs_listFree (cur : String) (kvs : List (String × PyVal))
    (hp : tupleCleanKVs kvs = true) :
    ∀ kvs', loadKVs cur kvs = .ok kvs' → listFreeKVs kvs' = true := by
  match kvs with
  | [] =>
    intro kvs' h
    rw [loadKVs] at h
    cases h
    rfl
  | (k, v) :: rest =>
    intro kvs' h
    rw [tupleCleanKVs, Bool.and_eq_true] at hp
    rw [loadKVs] at h
    cases hv : load_object cur v with
    | error e => rw [hv] at h; cases h
    | ok w =>
      rw [hv] at h
      cases hrest : loadKVs cur rest with
      | error e => rw [hrest] at h; cases h
      | ok rest' =>
        rw [hrest] at h
        cases h
        rw [listFreeKVs, Bool.and_eq_true]
        exact ⟨load_listFree cur v hp.1 w hv,
          loadKVs_listFree cur rest hp.2 rest' hrest⟩

end

mutual

theorem decode_tupleClean (cur : String) (v : JsonVal) :
    ∀ p, decode_val cur v = .ok p → tupleClean p = true := by
  match v with
  | .jnum q =>
    intro p hp
    rw [show decode_val cur (.jnum q) = Except.ok (.pnum q) from rfl] at hp
    cases hp
    rfl
  | .jstr s =>
    intro p hp
    rw [show decode_val cur (.jstr s) = Except.ok (.pstr s) from rfl] at hp
    cases hp
    rfl
  | .jarr xs =>
    intro p hp
    rw [decode_val] at hp
    cases hxs : decodeList cur xs with
    | error e => rw [hxs] at hp; cases hp
    | ok ys =>
      rw [hxs] at hp
      cases hp
      rw [tupleClean]
      exact decodeList_tupleClean cur xs ys hxs
  | .jobj kvs =>
    intro p hp
    rw [decode_val] at hp
    cases hdec : decodeKVs cur kvs with
    | error e => rw [hdec] at hp; cases hp
    | ok kvs' =>
      rw [hdec] at hp
      replace hp : load_object cur (.pdict kvs') = Except.ok p := hp
      have htc : tupleCleanKVs kvs' = true :=
        decodeKVs_tupleClean cur kvs kvs' hdec
      have hlf : listFree p = true :=
        load_listFree cur (.pdict kvs') (by rw [tupleClean]; exact htc) p hp
      exact listFree_tupleClean p hlf

theorem decodeList_tupleClean (cur : String) (xs : List JsonVal) :
    ∀ ys, decodeList cur xs = .ok ys → tupleCleanList ys = true := by
  match xs with
  | [] =>
    intro ys h
    rw [decodeList] at h
    cases h
    rfl
  | x :: rest =>
    intro ys h
    rw [decodeList] at h
    cases hx : decode_val cur x with
    | error e => rw [hx] at h; cases h
    | ok y =>
      rw [hx] at h
      cases hrest : decodeList cur rest with
      | error e => rw [hrest] at h; cases h
      | ok ys' =>
        rw [hrest] at h
        cases h
        rw [tupleCleanList, Bool.and_eq_true]
        exact ⟨decode_tupleClean cur x y hx,
          decodeList_tupleClean cur rest ys' hrest⟩

theorem decodeKVs_tupleClean (cur : String) (kvs : List (String × JsonVal)) :
    ∀ kvs', decodeKVs cur kvs = .ok kvs' → tupleCleanKVs kvs' = true := by
  match kvs with
  | [] =>
    intro kvs' h
    rw [decodeKVs] at h
    cases h
    rfl
  | (k, v) :: rest =>
    intro kvs' h
    rw [decodeKVs] at h
    cases hv : decode_val cur v with
    | error e => rw [hv] at h; cases h
    | ok w =>
      rw [hv] at h
      cases hrest : decodeKVs cur rest with
      | error e => rw [hrest] at h; cases h
      | ok rest' =>
        rw [hrest] at h
        cases h
        rw [tupleCleanKVs, Bool.and_eq_true]
        exact ⟨decode_tupleClean cur v w hv,
          decodeKVs_tupleClean cur rest rest' hrest⟩

end

/-- Claim C10 (amended): the decoder converts to tuples exactly the JSON
arrays that pass through the `object_hook` — i.e. those contained in some
JSON object: decoding a JSON object yields a value with no Python list
anywhere inside it; but a JSON array not enclosed in any object is decoded
by `json.loads` without the hook (which Python applies only to object
literals), so it remains a Python list of its decoded items. -/
theorem loads_tuple_conversion (cur : String) (kvs : List (String × JsonVal))
    (r : PyVal) (h : loads cur (.jobj kvs) = .ok r)
    (xs : List JsonVal) (ys : List PyVal) (hxs : decodeList cur xs = .ok ys) :
    listFree r = true ∧ loads cur (.jarr xs) = .ok (.plist ys) := by
  constructor
  · rw [loads, decode_val] at h
    cases hdec : decodeKVs cur kvs with
    | error e => rw [hdec] at h; cases h
    | ok kvs' =>
      rw [hdec] at h
      replace h : load_object cur (.pdict kvs') = Except.ok r := h
      have htc : tupleCleanKVs kvs' = true :=
        decodeKVs_tupleClean cur kvs kvs' hdec
      exact load_listFree cur (.pdict kvs') (by rw [tupleClean]; exact htc) r h
  · rw [loads, decode_val, hxs]

/-- Claim C10 (refuting evaluation): a top-level Python list survives a
`dumps`/`loads` round trip as a list — the decoder's `object_hook` is never
applied to it, so it is not converted to a tuple. -/
theorem loads_dumps_toplevel_list :
    loads "1.0.0" (dumps "1.0.0" (.plist [.pnum 1, .pnum 2]))
      = .ok (.plist [.pnum 1, .pnum 2])
    ∧ PyVal.plist [.pnum 1, .pnum 2] ≠ PyVal.ptuple [.pnum 1, .pnum 2] := by
  constructor
  · rfl
  · intro hcontra
    cases hcontra

theorem loads_tuple_conversion_witness :
    listFree (PyVal.pdict [("a", .ptuple [.pnum 1])]) = true
    ∧ loads "1.0.0" (.jarr [.jnum 2]) = .ok (.plist [.pnum 2]) :=
  loads_tuple_conversion "1.0.0" [("a", .jarr [.jnum 1])]
    (.pdict [("a", .ptuple [.pnum 1])]) (by rfl)
    [.jnum 2] [.pnum 2] (by rfl)
